import Mathlib

/-!
Shallow embedding of `libcodechecker/source_code_comment_handler.py`
(class `SourceCodeCommentHandler`): the comment scanner, the directive
parser and the checker filter, together with theorems checking the
natural-language specification against this code.

Strings are embedded as `List Char`; Python string sets are embedded as
lists of the tokens in match order (only membership and emptiness of
these sets matter below).
-/

namespace CodeChecker

abbrev Str := List Char

def str (s : String) : Str := s.data

/-- Python `str` whitespace (also the characters matched by the regex
class backslash-s): space, tab, newline, carriage return, vertical tab,
form feed. -/
def isSpace (c : Char) : Bool :=
  c = ' ' || c = '\t' || c = '\n' || c = '\r' || c = '\x0B' || c = '\x0C'

/-- A separator of the checker-name list: the regex `[^,\s]+` token runs
are the maximal runs of characters that are neither commas nor whitespace. -/
def isSep (c : Char) : Bool := c = ',' || isSpace c

def trimL (s : Str) : Str := s.dropWhile isSpace

def trimR (s : Str) : Str := (s.reverse.dropWhile isSpace).reverse

/-- Python `str.strip()`. -/
def strip (s : Str) : Str := trimL (trimR s)

/-- `beginsWith s pat` : Python `s.startswith(pat)`. -/
def beginsWith : Str → Str → Bool
  | _, [] => true
  | [], _ :: _ => false
  | c :: cs, d :: ds => c = d && beginsWith cs ds

/-- `occursIn pat s` : Python `pat in s` (substring containment). -/
def occursIn (pat : Str) : Str → Bool
  | [] => beginsWith [] pat
  | c :: rest => beginsWith (c :: rest) pat || occursIn pat rest

/-- Split on separator characters, keeping empty chunks; helper for the
Python `str.split()` and `re.findall("[^,\s]+", ...)` embeddings. -/
def splitSepAux (p : Char → Bool) : Str → Str → List Str
  | [], acc => [acc.reverse]
  | c :: rest, acc =>
      if p c then acc.reverse :: splitSepAux p rest []
      else splitSepAux p rest (c :: acc)

/-- Maximal runs of non-separator characters: Python `s.split()` for
`p = isSpace`, and `re.findall("[^,\s]+", s)` for `p = isSep`. -/
def pysplit (p : Char → Bool) (s : Str) : List Str :=
  (splitSepAux p s []).filter (fun t => t ≠ [])

/-- Python `" ".join(tokens)`. -/
def joinSpace : List Str → Str
  | [] => []
  | [t] => t
  | t :: ts => t ++ ' ' :: joinSpace ts

/-- Python `" ".join(s.split())`: collapse whitespace runs to single
spaces and drop leading/trailing whitespace. -/
def collapseWs (s : Str) : Str := joinSpace (pysplit isSpace s)

/-- `re.findall("[^,\s]+", s)`. -/
def findNonSepTokens (s : Str) : List Str := pysplit isSep s

/-- Python `s.replace("//", "")`: remove the leftmost occurrence of the
two-slash pattern and continue after it (non-overlapping). -/
def removeSlashes : Str → Str
  | '/' :: '/' :: rest => removeSlashes rest
  | c :: rest => c :: removeSlashes rest
  | [] => []

def source_code_comment_markers : List Str :=
  [str "codechecker_suppress",
   str "codechecker_false_positive",
   str "codechecker_intentional",
   str "codechecker_confirmed"]

/-- `SourceCodeCommentHandler.__check_if_comment`: the stripped line must
start with the two-character comment marker. -/
def check_if_comment (source_line : Str) : Bool :=
  beginsWith (strip source_line) (str "//")

/-- `any(marker in source_line for marker in self.source_code_comment_markers)`,
evaluated on the raw (unstripped) line. -/
def line_has_marker (source_line : Str) : Bool :=
  source_code_comment_markers.any (fun m => occursIn m source_line)

/-- Not a closing bracket. -/
def notRB (c : Char) : Bool := c ≠ ']'

/-- Split a string at its last `]`: returns (text before it, text after
it), or none when no `]` occurs.  This realises the backtracking of the
greedy groups in the pattern `(.*)\s*\]\s*(.*)$`: the group before the
bracket extends to just before the last `]` of the remaining input. -/
def splitLastBracket (s : Str) : Option (Str × Str) :=
  let rest := s.reverse.dropWhile notRB
  if rest = [] then none
  else some ((rest.drop 1).reverse, (s.reverse.takeWhile notRB).reverse)

structure SourceLineComment where
  checkers : List Str
  message : Str
  status : Str
deriving DecidableEq

/-- The anchored match of the directive pattern
`^\s*(status)\s*\[\s*(checkers)\s*\]\s*(comment)$` against the already
whitespace-collapsed text; returns the three groups (the status group is
the matched marker keyword).  No marker keyword is a prefix of another,
so the first-alternative-wins search of `re` is the unique prefix test. -/
def matchDirective (t : Str) : Option (Str × Str × Str) :=
  let t1 := trimL t
  match source_code_comment_markers.find? (fun m => beginsWith t1 m) with
  | none => none
  | some m =>
      match trimL (t1.drop m.length) with
      | c :: r3 =>
          if c = '[' then
            match splitLastBracket (trimL r3) with
            | some (cg, aft) => some (m, cg, trimL aft)
            | none => none
          else none
      | [] => none

/-- `SourceCodeCommentHandler.__process_source_line_comment`. -/
def process_source_line_comment (source_line_comment : Str) :
    Option SourceLineComment :=
  let formatted := collapseWs source_line_comment
  match matchDirective formatted with
  | none => none
  | some (status, checkers, comment) =>
      let checkers_names :=
        if checkers = str "all" then [str "all"]
        else findNonSepTokens (strip checkers)
      let message :=
        if comment ≠ [] then comment
        else str "WARNING! source code comment is missing"
      let review_status :=
        if status = str "codechecker_intentional" then str "intentional"
        else if status = str "codechecker_confirmed" then str "confirmed"
        else str "false_positive"
      some { checkers := checkers_names,
             message := message,
             status := review_status }

/-- Modelled from the spec: the external line-reader collaborator
(`util.get_line`, not part of this unit) returns the exact text of the
1-indexed line without its line terminator; a request outside the file
yields the empty line. -/
def get_line (file : List Str) (line_number : Int) : Str :=
  if line_number ≤ 0 then [] else file.getD (line_number.toNat - 1) []

/-- The scanning loop of `get_source_line_comments`, walking downward in
line numbers from `n = previous_line_num`; `curr` is the accumulated
block with the topmost (most recently read) line first, which is exactly
Python's `list(reversed(curr_suppress_comment))`; `acc` is
`source_line_comments`. -/
def scanAux (file : List Str) (n : Nat) (curr : List Str)
    (acc : List SourceLineComment) : List SourceLineComment :=
  let source_line := get_line file (n : Int)
  if check_if_comment source_line then
    let curr2 := strip source_line :: curr
    if line_has_marker source_line then
      let suppress_comment := removeSlashes curr2.flatten
      let acc2 :=
        match process_source_line_comment suppress_comment with
        | some c => acc ++ [c]
        | none => acc
      match n with
      | 0 => acc2
      | Nat.succ m => scanAux file m [] acc2
    else
      match n with
      | 0 => acc
      | Nat.succ m => scanAux file m curr2 acc
  else acc

/-- `SourceCodeCommentHandler.get_source_line_comments`. -/
def get_source_line_comments (file : List Str) (bug_line : Int) :
    List SourceLineComment :=
  if bug_line - 1 < 1 then []
  else scanAux file (bug_line - 1).toNat [] []

/-- `SourceCodeCommentHandler.has_source_line_comments`: despite its
docstring, the Python function returns `len(comments)`. -/
def has_source_line_comments (file : List Str) (line : Int) : Nat :=
  (get_source_line_comments file line).length

/-- The loop of `filter_source_line_comments`: state is
(`all_checker_comment`, `checker_name_comments`, `comment_len`), where
`comment_len` is recomputed at the top of each iteration and therefore
holds, after the loop, the number of explicit matches found *before* the
last iteration. -/
def filterLoop (checker_name : Str) :
    List SourceLineComment → Option SourceLineComment →
    List SourceLineComment → Nat →
    Option SourceLineComment × List SourceLineComment × Nat
  | [], allC, named, clen => (allC, named, clen)
  | c :: rest, allC, named, _ =>
      let clen := named.length
      let allC2 := if str "all" ∈ c.checkers ∧ clen = 0 then some c else allC
      let named2 := if checker_name ∈ c.checkers then named ++ [c] else named
      filterLoop checker_name rest allC2 named2 clen

/-- `SourceCodeCommentHandler.filter_source_line_comments`. -/
def filter_source_line_comments (file : List Str) (bug_line : Int)
    (checker_name : Str) : List SourceLineComment :=
  let source_line_comments := get_source_line_comments file bug_line
  if source_line_comments.length = 0 then []
  else
    match filterLoop checker_name source_line_comments none [] 0 with
    | (allC, named, clen) =>
        if clen = 0 then
          match allC with
          | some c => named ++ [c]
          | none => named
        else named

/-- The line numbers passed to `get_line` during one scan, in call
order: the loop requests `previous_line_num`, and requests the next
(smaller) number exactly when the current line was a comment and
`previous_line_num > 0`. -/
def requestedAux (file : List Str) (n : Nat) : List Int :=
  (n : Int) ::
    (if check_if_comment (get_line file (n : Int)) then
      match n with
      | 0 => []
      | Nat.succ m => requestedAux file m
    else [])

/-- All line numbers `get_source_line_comments file bug_line` passes to
the line-reader. -/
def requested_lines (file : List Str) (bug_line : Int) : List Int :=
  if bug_line - 1 < 1 then [] else requestedAux file (bug_line - 1).toNat

/-- The block reconstruction as the specification words it (for comparison
with the code's reconstruction): the block's raw lines joined in file order
with their line breaks, every comment-prefix occurrence removed, and all
whitespace runs, including the line breaks, collapsed to single spaces. -/
def specReconstructedText (block : List Str) : Str :=
  collapseWs (removeSlashes (List.intercalate ['\n'] block))

/-- The contribution of one processed block to the scanner's output. -/
def optDir : Option SourceLineComment → List SourceLineComment
  | some c => [c]
  | none => []

/-- The text after the last `]` of a string, if any: the "text after the
closing bracket" of a directive, since the greedy checkers group always
extends to the last `]` of the matched text. -/
def afterLastBracket (t : Str) : Option Str :=
  (splitLastBracket t).map (fun pr => pr.2)

/-! ### Generic list lemmas -/

lemma dropWhile_eq_self_of_all {p : Char → Bool} :
    ∀ {l : Str}, (∀ c ∈ l, p c = false) → l.dropWhile p = l
  | [], _ => rfl
  | c :: rest, h => by
      rw [List.dropWhile_cons, if_neg]
      simp [h c (by simp)]

lemma head_false_of_dropWhile_eq_self {p : Char → Bool} {c : Char} {l : Str}
    (h : (c :: l).dropWhile p = c :: l) : p c = false := by
  by_cases hp : p c = true
  · rw [List.dropWhile_cons, if_pos hp] at h
    have h1 := congrArg List.length h
    have h2 := (List.dropWhile_sublist (l := l) (p := p)).length_le
    simp at h1
    omega
  · simpa using hp

lemma dropWhile_append_of_left {p : Char → Bool} {A B : Str}
    (hA : A ≠ []) (h : A.dropWhile p = A) : (A ++ B).dropWhile p = A ++ B := by
  cases A with
  | nil => exact absurd rfl hA
  | cons c A' =>
      have hc := head_false_of_dropWhile_eq_self h
      rw [List.cons_append, List.dropWhile_cons, if_neg (by simp [hc])]

lemma dropWhile_eq_self_of_append {p : Char → Bool} {A B : Str}
    (h : (A ++ B).dropWhile p = A ++ B) : A.dropWhile p = A := by
  cases A with
  | nil => rfl
  | cons c A' =>
      rw [List.cons_append] at h
      have hc := head_false_of_dropWhile_eq_self h
      rw [List.dropWhile_cons, if_neg (by simp [hc])]

lemma dropWhile_append_left_of_ne {p : Char → Bool} :
    ∀ {A : Str} (_ : A.dropWhile p ≠ []) (B : Str),
      (A ++ B).dropWhile p = A.dropWhile p ++ B
  | [], h, _ => absurd rfl h
  | c :: A', h, B => by
      by_cases hp : p c = true
      · rw [List.dropWhile_cons, if_pos hp] at h ⊢
        rw [List.cons_append, List.dropWhile_cons, if_pos hp]
        exact dropWhile_append_left_of_ne h B
      · rw [List.dropWhile_cons, if_neg hp, List.cons_append,
          List.dropWhile_cons, if_neg hp]

lemma takeWhile_append_left_of_ne {p : Char → Bool} :
    ∀ {A : Str} (_ : A.dropWhile p ≠ []) (B : Str),
      (A ++ B).takeWhile p = A.takeWhile p
  | [], h, _ => absurd rfl h
  | c :: A', h, B => by
      by_cases hp : p c = true
      · rw [List.dropWhile_cons, if_pos hp] at h
        rw [List.cons_append, List.takeWhile_cons, List.takeWhile_cons,
          if_pos hp, if_pos hp, takeWhile_append_left_of_ne h B]
      · rw [List.cons_append, List.takeWhile_cons, List.takeWhile_cons,
          if_neg hp, if_neg hp]

lemma mem_dropWhile_of_mem {p : Char → Bool} {c : Char} :
    ∀ {l : Str}, c ∈ l → p c = false → c ∈ l.dropWhile p
  | [], h, _ => absurd h (by simp)
  | d :: rest, h, hc => by
      by_cases hp : p d = true
      · rw [List.dropWhile_cons, if_pos hp]
        rcases List.mem_cons.mp h with h | h
        · subst h; rw [hp] at hc; exact absurd hc (by simp)
        · exact mem_dropWhile_of_mem h hc
      · rw [List.dropWhile_cons, if_neg hp]; exact h

/-! ### Lemmas about the token splitter -/

lemma splitSepAux_all_sep {p : Char → Bool} :
    ∀ (l acc : Str),
      (∀ t ∈ splitSepAux p l acc, t = []) →
      acc = [] ∧ ∀ c ∈ l, p c = true
  | [], acc, h => by
      have := h acc.reverse (by simp [splitSepAux])
      refine ⟨by simpa using this, ?_⟩
      intro c hc; simp at hc
  | c :: rest, acc, h => by
      simp only [splitSepAux] at h
      by_cases hp : p c = true
      · rw [if_pos hp] at h
        have hrest := splitSepAux_all_sep rest []
          (fun t ht => h t (List.mem_cons_of_mem _ ht))
        have hacc := h acc.reverse (List.mem_cons_self _ _)
        refine ⟨by simpa using hacc, ?_⟩
        intro d hd
        rcases List.mem_cons.mp hd with hd | hd
        · subst hd; exact hp
        · exact hrest.2 d hd
      · rw [if_neg hp] at h
        have := splitSepAux_all_sep rest (c :: acc) h
        exact absurd this.1 (by simp)

lemma splitSepAux_chars {p : Char → Bool} :
    ∀ (l acc : Str), (∀ c ∈ acc, p c = false) →
      ∀ t ∈ splitSepAux p l acc, ∀ c ∈ t, p c = false
  | [], acc, hacc, t, ht, c, hc => by
      simp only [splitSepAux, List.mem_singleton] at ht
      subst ht
      exact hacc c (List.mem_reverse.mp hc)
  | d :: rest, acc, hacc, t, ht, c, hc => by
      simp only [splitSepAux] at ht
      by_cases hp : p d = true
      · rw [if_pos hp] at ht
        rcases List.mem_cons.mp ht with ht | ht
        · subst ht; exact hacc c (List.mem_reverse.mp hc)
        · exact splitSepAux_chars rest [] (by simp) t ht c hc
      · rw [if_neg hp] at ht
        refine splitSepAux_chars rest (d :: acc) ?_ t ht c hc
        intro e he
        rcases List.mem_cons.mp he with he | he
        · subst he; simpa using hp
        · exact hacc e he

lemma pysplit_tokens {p : Char → Bool} {s t : Str} (ht : t ∈ pysplit p s) :
    t ≠ [] ∧ ∀ c ∈ t, p c = false := by
  have hmem := List.mem_filter.mp ht
  refine ⟨by simpa using hmem.2, ?_⟩
  exact splitSepAux_chars s [] (by simp) t hmem.1

lemma findNonSepTokens_ne_nil {s : Str} (h : ∃ c ∈ s, isSep c = false) :
    findNonSepTokens s ≠ [] := by
  intro hnil
  obtain ⟨c, hc, hsep⟩ := h
  have hall : ∀ t ∈ splitSepAux isSep s [], t = [] := by
    intro t ht
    by_contra htne
    have : t ∈ findNonSepTokens s := List.mem_filter.mpr ⟨ht, by simpa using htne⟩
    rw [hnil] at this
    simp at this
  have := (splitSepAux_all_sep s [] hall).2 c hc
  rw [this] at hsep
  exact absurd hsep (by simp)

lemma mem_strip_of_mem {c : Char} {l : Str} (hc : c ∈ l)
    (hs : isSpace c = false) : c ∈ strip l := by
  unfold strip trimL trimR
  refine mem_dropWhile_of_mem ?_ hs
  refine List.mem_reverse.mpr (mem_dropWhile_of_mem (List.mem_reverse.mpr hc) hs)

/-! ### The collapsed text never ends in whitespace -/

lemma joinSpace_nil : joinSpace [] = [] := rfl

lemma joinSpace_single (t : Str) : joinSpace [t] = t := rfl

lemma joinSpace_cons2 (t t' : Str) (ts : List Str) :
    joinSpace (t :: t' :: ts) = t ++ ' ' :: joinSpace (t' :: ts) := rfl

lemma joinSpace_ne_nil :
    ∀ {ts : List Str}, (∀ t ∈ ts, t ≠ []) → ts ≠ [] → joinSpace ts ≠ []
  | [], _, hne => absurd rfl hne
  | [t], hwf, _ => by simpa using hwf t (by simp)
  | t :: t' :: ts, hwf, _ => by
      rw [joinSpace_cons2]
      have : t ≠ [] := hwf t (by simp)
      cases t with
      | nil => exact absurd rfl this
      | cons c cs => simp

lemma dropWhile_reverse_joinSpace :
    ∀ {ts : List Str},
      (∀ t ∈ ts, t ≠ [] ∧ ∀ c ∈ t, isSpace c = false) →
      (joinSpace ts).reverse.dropWhile isSpace = (joinSpace ts).reverse
  | [], _ => rfl
  | [t], hwf => by
      rw [joinSpace_single]
      refine dropWhile_eq_self_of_all ?_
      intro c hc
      exact (hwf t (by simp)).2 c (List.mem_reverse.mp hc)
  | t :: t' :: ts, hwf => by
      rw [joinSpace_cons2, List.reverse_append, List.reverse_cons]
      have hJ : (joinSpace (t' :: ts)).reverse.dropWhile isSpace =
          (joinSpace (t' :: ts)).reverse :=
        dropWhile_reverse_joinSpace (fun u hu => hwf u (by simp [hu]))
      have hJne : joinSpace (t' :: ts) ≠ [] :=
        joinSpace_ne_nil (fun u hu => (hwf u (by simp [hu])).1) (by simp)
      rw [List.append_assoc]
      refine dropWhile_append_of_left ?_ hJ
      simpa using hJne

lemma trimR_collapseWs (s : Str) : trimR (collapseWs s) = collapseWs s := by
  unfold trimR collapseWs
  rw [dropWhile_reverse_joinSpace, List.reverse_reverse]
  intro t ht
  have := pysplit_tokens (p := isSpace) ht
  exact this

/-! ### Step lemmas for the scanner loop -/

lemma get_line_zero (file : List Str) : get_line file 0 = [] := by
  simp [get_line]

lemma scanAux_not_comment {file : List Str} {n : Nat} {curr : List Str}
    {acc : List SourceLineComment}
    (h : check_if_comment (get_line file (n : Int)) = false) :
    scanAux file n curr acc = acc := by
  rw [scanAux]
  simp [h]

lemma scanAux_zero {file : List Str} {curr : List Str}
    {acc : List SourceLineComment} : scanAux file 0 curr acc = acc := by
  refine scanAux_not_comment ?_
  rw [show ((0 : Nat) : Int) = 0 from rfl, get_line_zero]
  rfl

lemma scanAux_succ_no_marker {file : List Str} {m : Nat} {curr : List Str}
    {acc : List SourceLineComment}
    (h1 : check_if_comment (get_line file ((m : Int) + 1)) = true)
    (h2 : line_has_marker (get_line file ((m : Int) + 1)) = false) :
    scanAux file (m + 1) curr acc =
      scanAux file m (strip (get_line file ((m : Int) + 1)) :: curr) acc := by
  rw [scanAux]
  push_cast
  simp [h1, h2]

lemma scanAux_succ_marker {file : List Str} {m : Nat} {curr : List Str}
    {acc : List SourceLineComment}
    (h1 : check_if_comment (get_line file ((m : Int) + 1)) = true)
    (h2 : line_has_marker (get_line file ((m : Int) + 1)) = true) :
    scanAux file (m + 1) curr acc =
      scanAux file m []
        (acc ++ optDir (process_source_line_comment (removeSlashes
          (strip (get_line file ((m : Int) + 1)) ++ curr.flatten)))) := by
  rw [scanAux]
  push_cast
  simp only [h1, h2, if_true, List.flatten_cons]
  cases hp : process_source_line_comment (removeSlashes
      (strip (get_line file ((m : Int) + 1)) ++ curr.flatten)) with
  | none => simp [hp, optDir]
  | some c => simp [hp, optDir]

lemma scanAux_append (file : List Str) :
    ∀ (n : Nat) (curr : List Str) (acc : List SourceLineComment),
      scanAux file n curr acc = acc ++ scanAux file n curr []
  | 0, curr, acc => by rw [scanAux_zero, scanAux_zero, List.append_nil]
  | m + 1, curr, acc => by
      by_cases h1 : check_if_comment (get_line file ((m : Int) + 1)) = true
      · by_cases h2 : line_has_marker (get_line file ((m : Int) + 1)) = true
        · rw [scanAux_succ_marker h1 h2, scanAux_succ_marker h1 h2,
            scanAux_append file m _ (acc ++ _), scanAux_append file m _ ([] ++ _)]
          simp [List.append_assoc]
        · rw [scanAux_succ_no_marker h1 (by simpa using h2),
            scanAux_succ_no_marker h1 (by simpa using h2),
            scanAux_append file m _ acc]
      · rw [scanAux_not_comment (n := m + 1) (by push_cast; simpa using h1),
          scanAux_not_comment (n := m + 1) (by push_cast; simpa using h1),
          List.append_nil]

lemma requestedAux_nonneg (file : List Str) :
    ∀ (k : Nat) (n : Int), n ∈ requestedAux file k → 0 ≤ n := by
  intro k
  induction k with
  | zero =>
      intro n h
      rw [requestedAux] at h
      rcases List.mem_cons.mp h with h | h
      · subst h; exact le_refl 0
      · split at h <;> simp at h
  | succ m ih =>
      intro n h
      rw [requestedAux] at h
      rcases List.mem_cons.mp h with h | h
      · subst h; positivity
      · split at h
        · exact ih n h
        · simp at h

/-- If the line at `j` is not a comment and every line strictly between `j`
and `n` (inclusive) is a markerless comment, the scanner loop started at `n`
returns its accumulator unchanged: an unterminated, markerless comment run
never yields a directive. -/
lemma scanAux_all_plain (file : List Str) (j : Int)
    (hnc : check_if_comment (get_line file j) = false) :
    ∀ (n : Nat), j ≤ (n : Int) →
      (∀ i : Int, j < i → i ≤ (n : Int) →
        check_if_comment (get_line file i) = true ∧
        line_has_marker (get_line file i) = false) →
      ∀ (curr : List Str) (acc : List SourceLineComment),
        scanAux file n curr acc = acc := by
  intro n
  induction n with
  | zero =>
      intro _ _ curr acc
      exact scanAux_zero
  | succ m ih =>
      intro hjn hall curr acc
      by_cases hj : j = (m : Int) + 1
      · refine scanAux_not_comment (n := m + 1) ?_
        push_cast
        rw [← hj]
        exact hnc
      · have hjlt : j < (m : Int) + 1 := by push_cast at hjn; omega
        have hline := hall ((m : Int) + 1) hjlt (by push_cast; omega)
        rw [scanAux_succ_no_marker hline.1 hline.2]
        refine ih (by omega) ?_ _ _
        intro i hji him
        exact hall i hji (by push_cast; omega)

/-! ### Claim theorems -/

/-- C1 (code bug): with scanner output `[{all}, {x}]` in iteration order and
an explicit match for `x` present, the filter nevertheless returns the
wildcard directive as well, because the post-loop test reads the stale
`comment_len` value computed before the last iteration. -/
theorem filter_admits_wildcard_despite_explicit_match :
    get_source_line_comments
        [str "// codechecker_suppress [x] c1",
         str "// codechecker_suppress [all] c2"] 3 =
      [⟨[str "all"], str "c2", str "false_positive"⟩,
       ⟨[str "x"], str "c1", str "false_positive"⟩] ∧
    filter_source_line_comments
        [str "// codechecker_suppress [x] c1",
         str "// codechecker_suppress [all] c2"] 3 (str "x") =
      [⟨[str "x"], str "c1", str "false_positive"⟩,
       ⟨[str "all"], str "c2", str "false_positive"⟩] := by
  decide

/-- C2 counterexample: `codechecker_suppress [] some comment` is accepted by
the directive grammar yet produces a directive whose checkers set is empty,
refuting the invariant that `checkers` is never empty. -/
theorem empty_brackets_accepted_with_empty_checkers :
    process_source_line_comment (str "codechecker_suppress [] some comment") =
      some ⟨[], str "some comment", str "false_positive"⟩ := by
  decide

/-- C2 (amended): every directive produced by the parser has a non-empty
checkers set provided the bracket interior (the checkers group of the match)
contains at least one character that is neither a comma nor whitespace. -/
theorem checkers_nonempty_of_nonsep_char (s st cg cm : Str)
    (d : SourceLineComment)
    (hm : matchDirective (collapseWs s) = some (st, cg, cm))
    (hc : ∃ c ∈ cg, isSep c = false)
    (hd : process_source_line_comment s = some d) :
    d.checkers ≠ [] := by
  simp only [process_source_line_comment, hm, Option.some.injEq] at hd
  subst hd
  by_cases hall : cg = str "all"
  · simp [hall]
  · simp only [hall, if_neg, if_false]
    refine findNonSepTokens_ne_nil ?_
    obtain ⟨c, hcm, hcs⟩ := hc
    have hsp : isSpace c = false := by
      by_contra hsp'
      have : isSpace c = true := by simpa using hsp'
      rw [isSep, this, Bool.or_true] at hcs
      exact absurd hcs (by simp)
    exact ⟨c, mem_strip_of_mem hcm hsp, hcs⟩

/-- C2 witness: a concrete application of the amended theorem. -/
theorem checkers_nonempty_of_nonsep_char_witness :
    (⟨[str "a"], str "m", str "false_positive"⟩ : SourceLineComment).checkers ≠ [] :=
  checkers_nonempty_of_nonsep_char (str "codechecker_suppress [a] m")
    (str "codechecker_suppress") (str "a") (str "m") _
    (by decide) ⟨'a', by decide, by decide⟩ (by decide)

/-- C3 counterexample: scanning from bug line 2 over a file whose first line
is a comment requests line 1 and then line 0 from the line-reader, so the
scanner does request a line number below 1. -/
theorem scanner_requests_line_zero :
    requested_lines [str "// x"] 2 = [1, 0] ∧ ¬ (1 ≤ (0 : Int)) := by
  decide

/-- C3 (amended): every line number the scanner passes to the line-reader is
non-negative; line 0 may be requested (when the comment run reaches line 1),
but never a negative line number. -/
theorem requested_lines_nonneg (file : List Str) (bug_line : Int) (n : Int)
    (h : n ∈ requested_lines file bug_line) : 0 ≤ n := by
  unfold requested_lines at h
  split at h
  · simp at h
  · exact requestedAux_nonneg file _ n h

/-- C3 witness: a concrete application of the amended theorem. -/
theorem requested_lines_nonneg_witness : 0 ≤ (0 : Int) :=
  requested_lines_nonneg [str "// x"] 2 0 (by decide)

/-- C5: when `bug_line - 1 < 1` the scanner returns the empty sequence for
every file, and passes no line number at all to the line-reader. -/
theorem scan_bug_line_le_one_empty (file : List Str) (bug_line : Int)
    (h : bug_line - 1 < 1) :
    get_source_line_comments file bug_line = [] ∧
    requested_lines file bug_line = [] := by
  unfold get_source_line_comments requested_lines
  rw [if_pos h, if_pos h]
  exact ⟨rfl, rfl⟩

/-- C5 witness: a concrete application at `bug_line = 1`. -/
theorem scan_bug_line_le_one_empty_witness :
    get_source_line_comments [str "// codechecker_suppress [all] x"] 1 = [] ∧
    requested_lines [str "// codechecker_suppress [all] x"] 1 = [] :=
  scan_bug_line_le_one_empty [str "// codechecker_suppress [all] x"] 1 (by decide)

/-- C9: when the scanner's output is a single directive whose checkers set is
the wildcard, filtering for the literal checker name `all` returns that same
directive twice: once as an explicit match and once as the wildcard fallback. -/
theorem filter_all_returns_wildcard_twice (file : List Str) (bug_line : Int)
    (d : SourceLineComment)
    (hget : get_source_line_comments file bug_line = [d])
    (hchk : d.checkers = [str "all"]) :
    filter_source_line_comments file bug_line (str "all") = [d, d] := by
  unfold filter_source_line_comments
  rw [hget]
  simp [filterLoop, hchk]

/-- C9 witness: a concrete application of the theorem. -/
theorem filter_all_returns_wildcard_twice_witness :
    filter_source_line_comments [str "// codechecker_suppress [all] c"] 2 (str "all") =
      [⟨[str "all"], str "c", str "false_positive"⟩,
       ⟨[str "all"], str "c", str "false_positive"⟩] :=
  filter_all_returns_wildcard_twice [str "// codechecker_suppress [all] c"] 2
    ⟨[str "all"], str "c", str "false_positive"⟩ (by decide) (by decide)

/-- C10: `has_source_line_comments` returns the integer number of directives
parsed for the line, i.e. the length of the sequence returned by
`get_source_line_comments`, and that number can exceed one, so it is a count
rather than a boolean. -/
theorem has_source_line_comments_counts_directives :
    (∀ (file : List Str) (line : Int),
      has_source_line_comments file line =
        (get_source_line_comments file line).length) ∧
    has_source_line_comments
      [str "// codechecker_suppress [a] m1",
       str "// codechecker_suppress [b] m2"] 3 = 2 :=
  ⟨fun _ _ => rfl, by decide⟩

/-- C6: scanning stops at the first non-comment line found walking upward
from `bug_line - 1`, and comment lines accumulated without a closing marker
are discarded: if the line at `j` is not a comment and every line strictly
between `j` and `bug_line` is a markerless comment, the scan returns the
empty sequence (in particular when `j = bug_line - 1`, regardless of marker
comments above `j`). -/
theorem scan_stops_at_non_comment (file : List Str) (bug_line j : Int)
    (hj : j < bug_line)
    (hnc : check_if_comment (get_line file j) = false)
    (hall : ∀ i : Int, j < i → i < bug_line →
      check_if_comment (get_line file i) = true ∧
      line_has_marker (get_line file i) = false) :
    get_source_line_comments file bug_line = [] := by
  unfold get_source_line_comments
  by_cases hlt : bug_line - 1 < 1
  · rw [if_pos hlt]
  · rw [if_neg hlt]
    have hcast : ((bug_line - 1).toNat : Int) = bug_line - 1 :=
      Int.toNat_of_nonneg (by omega)
    refine scanAux_all_plain file j hnc _ ?_ ?_ [] []
    · rw [hcast]; omega
    · intro i hji him
      rw [hcast] at him
      exact hall i hji (by omega)

/-- C6 witness: a non-comment line directly above the bug line makes the
scan return the empty sequence even though a marker comment sits above it. -/
theorem scan_stops_at_non_comment_witness :
    get_source_line_comments
      [str "// codechecker_suppress [all] hi", str "int x;"] 3 = [] :=
  scan_stops_at_non_comment
    [str "// codechecker_suppress [all] hi", str "int x;"] 3 2
    (by decide) (by decide)
    (fun i h1 h2 => absurd h1 (by omega))

/-- C7: a block whose marker line is present but whose reconstructed text
does not match the directive grammar contributes no directive, and scanning
continues above it exactly as a scan started at the malformed line would. -/
theorem malformed_marker_block_skipped (file : List Str) (bug_line : Int)
    (hb : 2 ≤ bug_line)
    (hc : check_if_comment (get_line file (bug_line - 1)) = true)
    (hm : line_has_marker (get_line file (bug_line - 1)) = true)
    (hp : process_source_line_comment
      (removeSlashes (strip (get_line file (bug_line - 1)))) = none) :
    get_source_line_comments file bug_line =
      get_source_line_comments file (bug_line - 1) := by
  unfold get_source_line_comments
  rw [if_neg (by omega : ¬ bug_line - 1 < 1)]
  obtain ⟨m, hk⟩ : ∃ m, (bug_line - 1).toNat = m + 1 :=
    ⟨(bug_line - 1).toNat - 1, by omega⟩
  have ecast : ((m : Nat) : Int) + 1 = bug_line - 1 := by omega
  rw [← ecast] at hc hm hp
  rw [hk, scanAux_succ_marker hc hm]
  simp only [List.flatten_nil, List.append_nil, List.nil_append, hp, optDir]
  by_cases hb3 : bug_line - 1 - 1 < 1
  · rw [if_pos hb3]
    have hm0 : m = 0 := by omega
    subst hm0
    exact scanAux_zero
  · rw [if_neg hb3]
    have : (bug_line - 1 - 1).toNat = m := by omega
    rw [this]

/-- C7 witness: the bracket-less marker line directly above the bug line is
skipped with no directive, and the well-formed block above it still yields
its directive. -/
theorem malformed_marker_block_skipped_witness :
    get_source_line_comments
      [str "// codechecker_suppress [a] ok",
       str "// codechecker_suppress core.Foo some comment"] 3 =
      [⟨[str "a"], str "ok", str "false_positive"⟩] := by
  rw [malformed_marker_block_skipped
    [str "// codechecker_suppress [a] ok",
     str "// codechecker_suppress core.Foo some comment"] 3
    (by decide) (by decide) (by decide) (by decide)]
  decide

/-- C4 counterexample: for the block `// codechecker_suppress [a] some`
followed by `//comment`, the code strips each line and concatenates them
with no separator, gluing `some` and `comment` into `somecomment`; the
claim's reconstruction (line breaks collapsed to single spaces) would have
produced the message `some comment` instead. -/
theorem reconstruction_not_whitespace_collapsed_join :
    get_source_line_comments
      [str "// codechecker_suppress [a] some", str "//comment"] 3 =
      [⟨[str "a"], str "somecomment", str "false_positive"⟩] ∧
    process_source_line_comment (specReconstructedText
      [str "// codechecker_suppress [a] some", str "//comment"]) =
      some ⟨[str "a"], str "some comment", str "false_positive"⟩ := by
  decide

/-- C4 (amended): for a block of two contiguous comment lines closed by a
marker on the upper line, the text handed to the parser is the two stripped
lines concatenated in top-to-bottom file order with no separator, with all
comment-prefix occurrences then removed (whitespace collapsing happens
inside the parser); the line break itself is deleted, not replaced by a
space, and scanning continues above the block. -/
theorem scan_two_line_block_reconstruction (file : List Str) (bug_line : Int)
    (h3 : 3 ≤ bug_line)
    (hc2 : check_if_comment (get_line file (bug_line - 1)) = true)
    (hm2 : line_has_marker (get_line file (bug_line - 1)) = false)
    (hc1 : check_if_comment (get_line file (bug_line - 2)) = true)
    (hm1 : line_has_marker (get_line file (bug_line - 2)) = true) :
    get_source_line_comments file bug_line =
      optDir (process_source_line_comment
        (removeSlashes (strip (get_line file (bug_line - 2)) ++
          strip (get_line file (bug_line - 1))))) ++
      get_source_line_comments file (bug_line - 2) := by
  obtain ⟨m, hk⟩ : ∃ m, (bug_line - 1).toNat = m + 1 + 1 :=
    ⟨(bug_line - 1).toNat - 2, by omega⟩
  have ecast1 : ((m + 1 : Nat) : Int) + 1 = bug_line - 1 := by push_cast; omega
  have ecast2 : ((m : Nat) : Int) + 1 = bug_line - 2 := by omega
  rw [← ecast1] at hc2 hm2
  rw [← ecast2] at hc1 hm1
  unfold get_source_line_comments
  rw [if_neg (by omega : ¬ bug_line - 1 < 1), hk,
    scanAux_succ_no_marker hc2 hm2, scanAux_succ_marker hc1 hm1,
    ← ecast1, ← ecast2]
  simp only [List.flatten_cons, List.flatten_nil, List.append_nil,
    List.nil_append]
  rw [scanAux_append]
  congr 1
  cases m with
  | zero => rw [if_pos (by norm_num)]; exact scanAux_zero
  | succ m' =>
      rw [if_neg (by push_cast; omega)]
      have : (((m' + 1 : Nat) : Int) + 1 - 1).toNat = m' + 1 := by
        push_cast; omega
      rw [this]

/-- C4 witness: the two-line example reconstructs to one directive with
checkers a, b and message `some comment` (the space survives because it
follows the removed comment prefix). -/
theorem scan_two_line_block_reconstruction_witness :
    get_source_line_comments
      [str "// codechecker_suppress [a,b] some", str "// comment"] 3 =
      [⟨[str "a", str "b"], str "some comment", str "false_positive"⟩] := by
  rw [scan_two_line_block_reconstruction
    [str "// codechecker_suppress [a,b] some", str "// comment"] 3
    (by decide) (by decide) (by decide) (by decide) (by decide)]
  decide

/-! ### The message equals the trimmed text after the closing bracket -/

lemma afterLastBracket_of_suffix {u t cg aft : Str}
    (hsuf : u <:+ t) (h : splitLastBracket u = some (cg, aft)) :
    afterLastBracket t = some aft := by
  obtain ⟨v, rfl⟩ := hsuf
  by_cases hrest : u.reverse.dropWhile notRB = []
  · simp [splitLastBracket, hrest] at h
  · simp only [splitLastBracket] at h
    rw [if_neg hrest] at h
    simp only [Option.some.injEq, Prod.mk.injEq] at h
    obtain ⟨-, rfl⟩ := h
    have hne : u.reverse.dropWhile notRB ++ v.reverse ≠ [] := by
      intro hnil
      exact hrest (List.append_eq_nil.mp hnil).1
    simp only [afterLastBracket, splitLastBracket, List.reverse_append,
      dropWhile_append_left_of_ne hrest, takeWhile_append_left_of_ne hrest]
    rw [if_neg hne]
    simp

lemma trimR_afterLastBracket {s b : Str}
    (hb : afterLastBracket (collapseWs s) = some b) : trimR b = b := by
  have ht : (collapseWs s).reverse.dropWhile isSpace = (collapseWs s).reverse := by
    have h1 := trimR_collapseWs s
    unfold trimR at h1
    have h2 := congrArg List.reverse h1
    rwa [List.reverse_reverse] at h2
  by_cases hrest : (collapseWs s).reverse.dropWhile notRB = []
  · simp [afterLastBracket, splitLastBracket, hrest] at hb
  · simp only [afterLastBracket, splitLastBracket] at hb
    rw [if_neg hrest] at hb
    simp at hb
    subst hb
    unfold trimR
    rw [List.reverse_reverse]
    congr 1
    obtain ⟨B, hB⟩ := List.takeWhile_prefix (l := (collapseWs s).reverse) notRB
    exact dropWhile_eq_self_of_append (B := B) (by rw [hB]; exact ht)

lemma matchDirective_comment_group (t st cg cm : Str)
    (h : matchDirective t = some (st, cg, cm)) :
    ∃ aft, afterLastBracket t = some aft ∧ cm = trimL aft := by
  simp only [matchDirective] at h
  cases hfind : (source_code_comment_markers.find? fun m => beginsWith (trimL t) m) with
  | none => rw [hfind] at h; simp at h
  | some m =>
      simp only [hfind] at h
      cases hr : trimL ((trimL t).drop m.length) with
      | nil =>
          simp only [hr] at h
          exact absurd h (by simp)
      | cons c r3 =>
          simp only [hr] at h
          by_cases hc : c = '['
          · rw [if_pos hc] at h
            cases hsplit : splitLastBracket (trimL r3) with
            | none => rw [hsplit] at h; simp at h
            | some pr =>
                obtain ⟨cg0, aft⟩ := pr
                rw [hsplit] at h
                simp only [Option.some.injEq, Prod.mk.injEq] at h
                obtain ⟨rfl, rfl, rfl⟩ := h
                refine ⟨aft, ?_, rfl⟩
                refine afterLastBracket_of_suffix ?_ hsplit
                have s1 : trimL r3 <:+ r3 := List.dropWhile_suffix isSpace
                have s2 : r3 <:+ c :: r3 := ⟨[c], rfl⟩
                have s3 : c :: r3 <:+ (trimL t).drop m.length :=
                  hr ▸ List.dropWhile_suffix isSpace
                have s4 : (trimL t).drop m.length <:+ trimL t :=
                  List.drop_suffix m.length (trimL t)
                have s5 : trimL t <:+ t := List.dropWhile_suffix isSpace
                exact s1.trans (s2.trans (s3.trans (s4.trans s5)))
          · rw [if_neg hc] at h; simp at h

/-- C8: for every input accepted by the directive grammar, the directive's
message is the text after the closing bracket of the collapsed input,
trimmed; when that trimmed text is empty the message is the fixed
placeholder `WARNING! source code comment is missing`. -/
theorem message_is_trimmed_text_after_bracket (s : Str) (d : SourceLineComment)
    (hp : process_source_line_comment s = some d) (b : Str)
    (hb : afterLastBracket (collapseWs s) = some b) :
    d.message =
      if strip b = [] then str "WARNING! source code comment is missing"
      else strip b := by
  cases hm : matchDirective (collapseWs s) with
  | none =>
      simp only [process_source_line_comment, hm] at hp
      exact absurd hp (by simp)
  | some tr =>
      obtain ⟨st, cg, cm⟩ := tr
      obtain ⟨aft, haft, hcm⟩ := matchDirective_comment_group _ st cg cm hm
      rw [haft] at hb
      obtain rfl : aft = b := Option.some.inj hb
      have htr : trimR aft = aft := trimR_afterLastBracket haft
      have hstrip : strip aft = cm := by
        rw [strip, htr, ← hcm]
      simp only [process_source_line_comment, hm, Option.some.injEq] at hp
      subst hp
      rw [hstrip]
      by_cases hnil : cm = []
      · simp [hnil]
      · simp [hnil]

/-- C8 witness: a concrete application of the theorem: the text after the
bracket is ` hi`, and the message is its trimmed form `hi`. -/
theorem message_is_trimmed_text_after_bracket_witness :
    (⟨[str "a"], str "hi", str "false_positive"⟩ :
        SourceLineComment).message =
      if strip (str " hi") = [] then str "WARNING! source code comment is missing"
      else strip (str " hi") :=
  message_is_trimmed_text_after_bracket (str "codechecker_suppress [a] hi")
    ⟨[str "a"], str "hi", str "false_positive"⟩ (by decide)
    (str " hi") (by decide)

end CodeChecker
